import Mathlib

/-!
Verification of the AutoOrtho virtual-filesystem dispatch layer and tile cache
(src/autoortho/autoortho.py), as a shallow embedding in Lean 4.

Python strings are modelled as lists of characters.  The regular expression
compiled in AutoOrtho.__init__,

  .*/(\d+)[-_](\d+)[-_]((?!ZL)\D*)(\d+).dds

is embedded as an executable backtracking matcher with Python re.match
semantics: matching is anchored at the start of the string only, the dot
matches any character except a newline, star is greedy (the engine tries the
longest repetition first and backtracks), and the group values are the ones
produced by the first successful backtracking path.  The character class \d
is modelled as the ASCII digits and \D as its complement.
-/

def isDig (c : Char) : Bool := c.isDigit

def isSep (c : Char) : Bool := c == '-' || c == '_'

/-- try each candidate in order and return the first success; this is the
order in which a backtracking regex engine explores its choice points. -/
def firstSome : List α → (α → Option β) → Option β
  | [], _ => none
  | a :: rest, f =>
    match f a with
    | some b => some b
    | none => firstSome rest f

/-- suffixes of the input that start right after a '/', where every character
before that '/' is a non-newline (so that the greedy `.*` can consume it).
Listed leftmost first; `ddsMatchL` reverses the list so that the greedy `.*`
tries the rightmost '/' first, exactly as the Python engine does. -/
def slashSplits : List Char → List (List Char)
  | [] => []
  | c :: cs => if c = '\n' then [] else (if c = '/' then [cs] else []) ++ slashSplits cs

/-- all splits `s = g ++ r` where `g` is a nonempty run of digits: the choice
points of a `(\d+)` group.  Listed shortest first; users reverse the list to
obtain the greedy (longest-first) order. -/
def digSplits : List Char → List (List Char × List Char)
  | [] => []
  | c :: cs =>
    if isDig c then
      ([c], cs) :: (digSplits cs).map (fun gr => (c :: gr.1, gr.2))
    else []

/-- all splits `s = g ++ r` where `g` is a possibly empty run of non-digits:
the choice points of a `\D*` group.  Listed shortest first. -/
def nonDigSplits : List Char → List (List Char × List Char)
  | [] => [([], [])]
  | c :: cs =>
    ([], c :: cs) ::
      (if !isDig c then (nonDigSplits cs).map (fun gr => (c :: gr.1, gr.2)) else [])

/-- the negative lookahead `(?!ZL)`: fails exactly when the text at the
current position begins with the two characters Z, L. -/
def startsZL : List Char → Bool
  | c1 :: c2 :: _ => c1 == 'Z' && c2 == 'L'
  | _ => false

/-- continuation applied after a `(\d+)` group: the remainder must begin
with a separator `[-_]`, and the continuation `k` receives the captured
digit group and the text after the separator. -/
def afterDigits (k : List Char → List Char → Option α) (gr : List Char × List Char) :
    Option α :=
  match gr.2 with
  | c :: r2 => if isSep c then k gr.1 r2 else none
  | [] => none

/-- continuation applied after the zoom `(\d+)` group: the remainder must
begin with any non-newline character (the unescaped dot) followed by the
literal letters d d s; the rest of the input is unconstrained because
`re.match` does not anchor at the end.  Returns the digit group. -/
def dotDds (gr : List Char × List Char) : Option (List Char) :=
  match gr.2 with
  | c :: d1 :: d2 :: d3 :: _ =>
    if c ≠ '\n' ∧ d1 = 'd' ∧ d2 = 'd' ∧ d3 = 's' then some gr.1 else none
  | _ => none

/-- match `(\d+).dds` at the start of the input (the tail of the pattern). -/
def matchZoomDds (s : List Char) : Option (List Char) :=
  firstSome (digSplits s).reverse dotDds

/-- match `((?!ZL)\D*)(\d+).dds` at the start of the input, returning the
map-type group and the zoom group. -/
def matchMapZoom (s : List Char) : Option (List Char × List Char) :=
  if startsZL s then none
  else
    firstSome (nonDigSplits s).reverse (fun gr =>
      (matchZoomDds gr.2).map (fun z => (gr.1, z)))

/-- match `(\d+)[-_]((?!ZL)\D*)(\d+).dds` at the start of the input,
returning the column, map-type and zoom groups. -/
def matchColRest (s : List Char) : Option (List Char × List Char × List Char) :=
  firstSome (digSplits s).reverse
    (afterDigits (fun b r4 => (matchMapZoom r4).map (fun mz => (b, mz))))

/-- match `(\d+)[-_](\d+)[-_]((?!ZL)\D*)(\d+).dds` at the start of the input,
returning the four groups. -/
def matchRowColRest (s : List Char) : Option (List Char × List Char × List Char × List Char) :=
  firstSome (digSplits s).reverse
    (afterDigits (fun a r2 => (matchColRest r2).map (fun xyz => (a, xyz))))

/-- the classifier AutoOrtho.dds_re applied with `re.match`: returns the four
captured groups (row, col, maptype, zoom) of
`.*/(\d+)[-_](\d+)[-_]((?!ZL)\D*)(\d+).dds`, or none when the path is not
recognized as a virtual texture file. -/
def ddsMatchL (p : List Char) : Option (List Char × List Char × List Char × List Char) :=
  firstSome (slashSplits p).reverse matchRowColRest

/-- decomposition of a path that the embedded regex accepts, with the four
group values made explicit: some '/' is preceded only by non-newline
characters and followed by row digits, a separator, column digits, a
separator, a non-digit run that does not begin with Z, L at the lookahead
position, zoom digits, one arbitrary non-newline character, and the literal
letters d d s; anything may follow. -/
def ddsSpec (p a b mt z : List Char) : Prop :=
  ∃ pre s1 s2 c post,
    p = pre ++ '/' :: (a ++ s1 :: (b ++ s2 :: (mt ++ z ++ c :: 'd' :: 'd' :: 's' :: post))) ∧
    (∀ x ∈ pre, x ≠ '\n') ∧
    a ≠ [] ∧ a.all isDig = true ∧ isSep s1 = true ∧
    b ≠ [] ∧ b.all isDig = true ∧ isSep s2 = true ∧
    (mt.all (fun x => !isDig x)) = true ∧
    startsZL (mt ++ z ++ c :: 'd' :: 'd' :: 's' :: post) = false ∧
    z ≠ [] ∧ z.all isDig = true ∧ c ≠ '\n'

/-- the filename component of a path: everything after the last '/'. -/
def filenameOf (p : List Char) : List Char :=
  ((p.reverse.takeWhile (fun c => c ≠ '/')).reverse)

/-- spec-modelled recognizer, written from the spec's words and NOT from the
source: the virtual filename convention, bit-exact and case-sensitive, is
`<digits><sep><digits><sep><nondigits-not-equal-"ZL"><digits>.dds` with
sep one of '-' or '_', applied to the path's filename as a whole. -/
def specTailOK (r : List Char) : Bool :=
  let mt := r.takeWhile (fun c => !isDig c)
  let rest := r.dropWhile (fun c => !isDig c)
  let z := rest.takeWhile isDig
  let tl := rest.dropWhile isDig
  decide (mt ≠ ['Z', 'L']) && !z.isEmpty && decide (tl = ['.', 'd', 'd', 's'])

/-- spec-modelled recognizer, filename grammar part: digits, a separator,
digits, a separator, then the map-type/zoom/extension tail. -/
def specVirtualName (f : List Char) : Bool :=
  let d1 := f.takeWhile isDig
  let r1 := f.dropWhile isDig
  match r1 with
  | c1 :: r2 =>
    !d1.isEmpty && isSep c1 &&
      (let d2 := r2.takeWhile isDig
       let r3 := r2.dropWhile isDig
       match r3 with
       | c2 :: r4 => !d2.isEmpty && isSep c2 && specTailOK r4
       | [] => false)
  | [] => false

/-- spec-modelled recognizer for whole paths: a path is virtual exactly when
its filename matches the convention. -/
def specVirtualPath (p : List Char) : Bool :=
  specVirtualName (filenameOf p)

/-! ## The tile cache (class TileCacher) -/

/-- Python's int() applied to a string of decimal digits. -/
def pyInt (ds : List Char) : Nat :=
  ds.foldl (fun acc c => 10 * acc + (c.toNat - 48)) 0

/-- decimal rendering of a natural number, as produced by an f-string. -/
def natStr (n : Nat) : List Char :=
  Nat.toDigits 10 n

/-- a tile handle as the cache sees it: the opaque provider object is
abstracted to a creation serial number `tid`, together with the reference
count field mutated by open/release and the closed flag set by close(). -/
structure Tile where
  tid : Nat
  refs : Int
  closed : Bool
deriving DecidableEq, Repr

/-- Modelled from the spec: the reference count of a freshly constructed
provider handle.  The initial count is set inside getortho.Tile, which is an
external collaborator that is not part of this repository; the spec's
glossary defines the reference count as the number of currently-open handles,
so a handle that has just been created and never opened carries zero. -/
def tileInitRefs : Int := 0

/-- cache-wide state: the insertion-ordered mapping from string key to tile
handle (a Python dict preserves insertion order), the hit/miss counters, a
source of fresh provider serial numbers, and an instrumentation counter for
the number of getortho.Tile constructor invocations. -/
structure CState where
  tiles : List (List Char × Tile)
  hits : Nat
  misses : Nat
  nextId : Nat
  ctorCalls : Nat
deriving DecidableEq, Repr

def emptyCState : CState := ⟨[], 0, 0, 0, 0⟩

/-- dict lookup: the value at the first occurrence of the key. -/
def lookupKey (k : List Char) : List (List Char × Tile) → Option Tile
  | [] => none
  | (k', t) :: rest => if k' = k then some t else lookupKey k rest

/-- dict assignment `d[k] = t`: overwrite in place, or append preserving
insertion order. -/
def setKey (k : List Char) (t : Tile) : List (List Char × Tile) → List (List Char × Tile)
  | [] => [(k, t)]
  | (k', t') :: rest => if k' = k then (k, t) :: rest else (k', t') :: setKey k t rest

/-- dict pop: remove the entry at the first occurrence of the key. -/
def popKey (k : List Char) : List (List Char × Tile) → List (List Char × Tile)
  | [] => []
  | (k', t') :: rest => if k' = k then rest else (k', t') :: popKey k rest

/-- mutate the refs field of the tile object stored at the key, which is what
`t.refs += d` does to the dict's value. -/
def bumpRefs (k : List Char) (d : Int) : List (List Char × Tile) → List (List Char × Tile)
  | [] => []
  | (k', t) :: rest =>
    if k' = k then (k', { t with refs := t.refs + d }) :: rest
    else (k', t) :: bumpRefs k d rest

/-- the cache key `idx = f"{row}_{col}_{map_type}_{zoom}"` built in
TileCacher._get_tile after the optional maptype override is applied. -/
def tileIdx (row col : Nat) (mt : List Char) (zoom : Nat) : List Char :=
  natStr row ++ '_' :: (natStr col ++ '_' :: (mt ++ '_' :: natStr zoom))

def getTileIdx (ovr : Option (List Char)) (row col : Nat) (mt : List Char) (zoom : Nat) :
    List Char :=
  tileIdx row col (ovr.getD mt) zoom

/-- TileCacher._get_tile, sequential semantics: look the key up; on a miss
count it, construct a provider handle and insert it; on a find with
non-positive reference count, count a hit; otherwise leave the counters
alone.  Returns the tile handed back to the caller and the new cache state. -/
def TileCacher.getTile (ovr : Option (List Char)) (row col : Nat) (mt : List Char)
    (zoom : Nat) (st : CState) : Tile × CState :=
  let idx := getTileIdx ovr row col mt zoom
  match lookupKey idx st.tiles with
  | none =>
    let t : Tile := ⟨st.nextId, tileInitRefs, false⟩
    (t, { st with
          misses := st.misses + 1
          ctorCalls := st.ctorCalls + 1
          nextId := st.nextId + 1
          tiles := setKey idx t st.tiles })
  | some t =>
    if t.refs ≤ 0 then (t, { st with hits := st.hits + 1 }) else (t, st)

/-- AutoOrtho.open on the cache state: when the path matches dds_re, parse
the groups, convert row, col and zoom with int(), fetch or create the tile
and increment its reference count; otherwise the host file is opened and the
cache is untouched. -/
def AutoOrtho.openOp (ovr : Option (List Char)) (p : List Char) (st : CState) : CState :=
  match ddsMatchL p with
  | some (r, c, m, z) =>
    let st' := (TileCacher.getTile ovr (pyInt r) (pyInt c) m (pyInt z) st).2
    { st' with tiles := bumpRefs (getTileIdx ovr (pyInt r) (pyInt c) m (pyInt z)) 1 st'.tiles }
  | none => st

/-- AutoOrtho.release on the cache state: when the path matches dds_re, fetch
or create the tile and decrement its reference count; otherwise the host
descriptor is closed and the cache is untouched. -/
def AutoOrtho.releaseOp (ovr : Option (List Char)) (p : List Char) (st : CState) : CState :=
  match ddsMatchL p with
  | some (r, c, m, z) =>
    let st' := (TileCacher.getTile ovr (pyInt r) (pyInt c) m (pyInt z) st).2
    { st' with tiles := bumpRefs (getTileIdx ovr (pyInt r) (pyInt c) m (pyInt z)) (-1) st'.tiles }
  | none => st

/-- AutoOrtho.read on the cache state: a dds path fetches or creates the tile
(whose read_dds_bytes answers the byte range); reference counts are not
touched. -/
def AutoOrtho.readOp (ovr : Option (List Char)) (p : List Char) (st : CState) : CState :=
  match ddsMatchL p with
  | some (r, c, m, z) =>
    (TileCacher.getTile ovr (pyInt r) (pyInt c) m (pyInt z) st).2
  | none => st

/-- a sequence of open (true) and release (false) calls on one path. -/
def applyOps (ovr : Option (List Char)) (p : List Char) (ops : List Bool) (st : CState) :
    CState :=
  ops.foldl (fun acc b => if b then AutoOrtho.openOp ovr p acc else AutoOrtho.releaseOp ovr p acc) st

/-- running balance of a sequence of open/release calls. -/
def countRel (l : List Bool) : Int :=
  (l.count true : Int) - (l.count false : Int)

/-! ## The reclamation loop (TileCacher.clean) -/

/-- the memory ceiling `memlimit = pow(2,30) * 2` of TileCacher.clean. -/
def memLimit : Nat := 2 ^ 30 * 2

/-- the provider's close(), releasing the handle's resources. -/
def closeTile (t : Tile) : Tile := { t with closed := true }

/-- the body of the eviction batch: for each candidate key, look the tile up
and, when its reference count is non-positive, pop it from the mapping and
close it.  Returns the surviving mapping and the closed tiles in order. -/
def sweepKeys : List (List Char) → List (List Char × Tile) →
    List (List Char × Tile) × List Tile
  | [], ts => (ts, [])
  | k :: ks, ts =>
    match lookupKey k ts with
    | some t =>
      if t.refs ≤ 0 then
        let r := sweepKeys ks (popKey k ts)
        (r.1, closeTile t :: r.2)
      else sweepKeys ks ts
    | none => sweepKeys ks ts

/-- one pass of the inner while loop of TileCacher.clean: when at least 90
tiles are cached and resident memory exceeds the 2 GiB ceiling, sweep the
first 20 keys in insertion order; otherwise do nothing. -/
def cleanPass (mem : Nat) (ts : List (List Char × Tile)) :
    List (List Char × Tile) × List Tile :=
  if 90 ≤ ts.length ∧ memLimit < mem then sweepKeys ((ts.map Prod.fst).take 20) ts
  else (ts, [])

/-- the reclamation loop over a stream of resident-memory samples, one per
pass. -/
def cleanLoop (mems : List Nat) (ts : List (List Char × Tile)) :
    List (List Char × Tile) :=
  mems.foldl (fun acc mem => (cleanPass mem acc).1) ts

/-! ## Two threads racing through TileCacher._get_tile

The source takes the tile lock twice: once around the dict lookup and once
around the construct-and-insert.  Between the two the lock is free, so a
thread is modelled with two atomic steps: the lookup, and the resolution
(miss counting, provider construction and dict insertion are all inside the
second locked region and the unlocked miss-counter increment is folded into
it, which does not affect handle creation). -/

inductive TPC where
  | start : TPC
  | checked : Option Tile → TPC
  | done : Tile → TPC
deriving DecidableEq, Repr

structure Sys2 where
  cst : CState
  pc1 : TPC
  pc2 : TPC
deriving DecidableEq, Repr

/-- one atomic step of a thread executing TileCacher._get_tile. -/
def gtStep (ovr : Option (List Char)) (row col : Nat) (mt : List Char) (zoom : Nat) :
    TPC → CState → TPC × CState
  | .start, st => (.checked (lookupKey (getTileIdx ovr row col mt zoom) st.tiles), st)
  | .checked none, st =>
    let t : Tile := ⟨st.nextId, tileInitRefs, false⟩
    (.done t, { st with
                misses := st.misses + 1
                ctorCalls := st.ctorCalls + 1
                nextId := st.nextId + 1
                tiles := setKey (getTileIdx ovr row col mt zoom) t st.tiles })
  | .checked (some t), st =>
    (.done t, if t.refs ≤ 0 then { st with hits := st.hits + 1 } else st)
  | .done t, st => (.done t, st)

/-- schedule step: true runs thread 1, false runs thread 2. -/
def sysStep (ovr : Option (List Char)) (row col : Nat) (mt : List Char) (zoom : Nat)
    (b : Bool) (s : Sys2) : Sys2 :=
  if b then
    let r := gtStep ovr row col mt zoom s.pc1 s.cst
    { s with pc1 := r.1, cst := r.2 }
  else
    let r := gtStep ovr row col mt zoom s.pc2 s.cst
    { s with pc2 := r.1, cst := r.2 }

def runSched (ovr : Option (List Char)) (row col : Nat) (mt : List Char) (zoom : Nat)
    (sched : List Bool) (s : Sys2) : Sys2 :=
  sched.foldl (fun acc b => sysStep ovr row col mt zoom b acc) s

/-! ## Path resolution (AutoOrtho._full_path) -/

/-- does the first list occur at the start of the second? -/
def leadsWith : List Char → List Char → Bool
  | [], _ => true
  | _ :: _, [] => false
  | a :: as', b :: bs => a == b && leadsWith as' bs

/-- str.split('/'). -/
def splitSlash : List Char → List (List Char)
  | [] => [[]]
  | c :: cs =>
    if c = '/' then [] :: splitSlash cs
    else
      match splitSlash cs with
      | g :: gs => (c :: g) :: gs
      | [] => [[c]]

/-- '/'.join. -/
def joinSlash : List (List Char) → List Char
  | [] => []
  | [x] => x
  | x :: xs => x ++ '/' :: joinSlash xs

/-- the component folding of posixpath.normpath: empty and '.' components
are dropped, '..' pops the previous component unless there is nothing to pop
at the root, or the path is relative and begins with '..' chains.  The
accumulator holds the kept components in reverse. -/
def normParts (slashes : Nat) : List (List Char) → List (List Char) → List (List Char)
  | acc, [] => acc.reverse
  | acc, comp :: rest =>
    if comp = [] ∨ comp = ['.'] then normParts slashes acc rest
    else if comp ≠ ['.', '.'] ∨ (slashes = 0 ∧ acc = []) ∨ acc.head? = some ['.', '.'] then
      normParts slashes (comp :: acc) rest
    else
      match acc with
      | _ :: acc' => normParts slashes acc' rest
      | [] => normParts slashes acc rest

/-- posixpath.normpath. -/
def normPath (p : List Char) : List Char :=
  if p = [] then ['.']
  else
    let slashes : Nat :=
      if leadsWith ['/', '/', '/'] p then 1
      else if leadsWith ['/', '/'] p then 2
      else if leadsWith ['/'] p then 1
      else 0
    let out := List.replicate slashes '/' ++ joinSlash (normParts slashes [] (splitSlash p))
    if out = [] then ['.'] else out

/-- posixpath.join with two arguments. -/
def posixJoin (a b : List Char) : List Char :=
  if leadsWith ['/'] b then b
  else if a = [] ∨ a.getLast? = some '/' then a ++ b
  else a ++ '/' :: b

/-- posixpath.abspath: paths that are not absolute are joined onto the
current working directory, then everything is normalized. -/
def absPath (cwd p : List Char) : List Char :=
  normPath (if leadsWith ['/'] p then p else posixJoin cwd p)

/-- AutoOrtho._full_path: strip one leading '/', join under the configured
root, make absolute. -/
def fullPathL (cwd root p : List Char) : List Char :=
  let p' := match p with
    | '/' :: rest => rest
    | other => other
  absPath cwd (posixJoin root p')

/-- a resolved path lies within the root when it is the root itself or the
root followed by a '/' separated remainder. -/
def withinRoot (root p : List Char) : Bool :=
  decide (p = root) || leadsWith (root ++ ['/']) p

/-- a normal path component: nonempty and neither the current-directory nor
the parent-directory marker, so that normalization leaves it alone. -/
def normalComp (c : List Char) : Bool :=
  !c.isEmpty && decide (c ≠ ['.']) && decide (c ≠ ['.', '.'])

/-! ## Filesystem dispatch operations -/

inductive FErr where
  | enoent : FErr
deriving DecidableEq, Repr

/-- a stat record as the dict built by AutoOrtho.getattr: the virtual branch
carries a block size key, the passthrough branch does not. -/
structure FileAttrs where
  stAtime : Rat
  stCtime : Rat
  stGid : Nat
  stUid : Nat
  stMode : Nat
  stMtime : Rat
  stNlink : Nat
  stSize : Nat
  stBlksize : Option Nat
deriving DecidableEq

/-- the class attribute default_uid of AutoOrtho. -/
def defaultUid : Nat := 0

/-- the class attribute default_gid of AutoOrtho. -/
def defaultGid : Nat := 0

/-- the fixed synthetic attribute record returned for a dds_re match. -/
def virtAttrs (uid gid : Nat) : FileAttrs :=
  { stAtime := (1649857250382081 : Rat) / 1000000
    stCtime := (1649857251726115 : Rat) / 1000000
    stGid := gid
    stUid := uid
    stMode := 33204
    stMtime := (1649857251726115 : Rat) / 1000000
    stNlink := 1
    stSize := 22369744
    stBlksize := some 32768 }

/-- AutoOrtho.getattr: a dds_re match returns the fixed synthetic record
regardless of the lstat state; any other path stats the re-rooted real path
and fails with a not-found error when it is absent.  The passthrough record
copies the stat fields but carries no block size key. -/
def getattrOp (cwd root : List Char) (uid gid : Nat)
    (lstatF : List Char → Option FileAttrs) (p : List Char) : Except FErr FileAttrs :=
  match ddsMatchL p with
  | some _ => .ok (virtAttrs uid gid)
  | none =>
    match lstatF (fullPathL cwd root p) with
    | some st => .ok { st with stBlksize := none }
    | none => .error .enoent

/-- Python file truncation: shrink to the length, or zero-pad up to it. -/
def pyTruncate (content : List Nat) (len : Nat) : List Nat :=
  content.take len ++ List.replicate (len - content.length) 0

/-- AutoOrtho.truncate: unconditionally opens the re-rooted real path in
mode r+ (raising a not-found error when the file does not exist) and
truncates it; there is no virtual-path case. -/
def truncateOp (cwd root p : List Char) (len : Nat)
    (fs : List Char → Option (List Nat)) : Except FErr (List Char → Option (List Nat)) :=
  let full := fullPathL cwd root p
  match fs full with
  | none => .error .enoent
  | some content => .ok (fun q => if q = full then some (pyTruncate content len) else fs q)

/-- AutoOrtho._flush: a dds_re match returns 0; any other path is delegated
to os.fsync on the host descriptor. -/
def flushOp (p : List Char) (fh : Nat) (hostSync : Nat → Except FErr Nat) :
    Except FErr Nat :=
  if (ddsMatchL p).isSome then .ok 0 else hostSync fh

/-- writing a buffer at an offset into host file contents: os.lseek followed
by os.write. -/
def hostWriteAt (content : List Nat) (off : Nat) (buf : List Nat) : List Nat :=
  content.take off ++ List.replicate (off - content.length) 0 ++ buf ++
    content.drop (off + buf.length)

/-- AutoOrtho._write: seeks and writes on the host descriptor; the path
argument is never consulted.  Returns the byte count os.write reports and
the updated descriptor table. -/
def writeOp (_p : List Char) (buf : List Nat) (off fh : Nat) (hst : Nat → List Nat) :
    Nat × (Nat → List Nat) :=
  (buf.length, fun fd => if fd = fh then hostWriteAt (hst fh) off buf else hst fd)

/-- a concrete 90-entry cache used by witnesses: distinct decimal keys, the
even-numbered tiles idle (refs 0) and the odd-numbered ones open (refs 1). -/
def demoTiles : List (List Char × Tile) :=
  (List.range 90).map (fun i => (natStr i, ⟨i, if i % 2 = 0 then 0 else 1, false⟩))

/-! ## Theorems -/

example : ddsMatchL "/24832_12416_BI16.dds".toList =
    some ("24832".toList, "12416".toList, "BI".toList, "16".toList) := by decide

example : ddsMatchL "/1_2_ZLA16.dds".toList = none := by decide

example : specVirtualPath "/1_2_ZLA16.dds".toList = true := by decide

example : ddsMatchL "/textures/123_456_BI16.dds".toList =
    some ("123".toList, "456".toList, "BI".toList, "16".toList) := by decide

/-- C8: in TileCacher._get_tile a miss is counted exactly on a fresh insert,
a hit exactly when a handle existed with reference count at or below zero,
and neither counter moves when the handle existed with a positive count. -/
theorem getTile_hit_miss_counters (ovr : Option (List Char)) (row col : Nat)
    (mt : List Char) (zoom : Nat) (st : CState) :
    ((TileCacher.getTile ovr row col mt zoom st).2.misses,
      (TileCacher.getTile ovr row col mt zoom st).2.hits) =
      match lookupKey (getTileIdx ovr row col mt zoom) st.tiles with
      | none => (st.misses + 1, st.hits)
      | some t => if t.refs ≤ 0 then (st.misses, st.hits + 1) else (st.misses, st.hits) := by
  unfold TileCacher.getTile
  cases h : lookupKey (getTileIdx ovr row col mt zoom) st.tiles with
  | none => simp [h]
  | some t => by_cases hr : t.refs ≤ 0 <;> simp [h, hr]

/-- C5: a path recognized by dds_re always receives the fixed synthetic
attribute record - size 22369744, block size 32768, link count 1, mode
33204, uid/gid 0 unless overridden - independently of the parsed groups and
of the lstat state, and never fails with a not-found error. -/
theorem getattr_virtual_synthetic (cwd root : List Char) (uid gid : Nat)
    (lstatF : List Char → Option FileAttrs) (p : List Char)
    (g : List Char × List Char × List Char × List Char)
    (hm : ddsMatchL p = some g) :
    getattrOp cwd root uid gid lstatF p = .ok (virtAttrs uid gid) ∧
    (virtAttrs uid gid).stSize = 22369744 ∧
    (virtAttrs uid gid).stBlksize = some 32768 ∧
    (virtAttrs uid gid).stNlink = 1 ∧
    (virtAttrs uid gid).stMode = 33204 ∧
    (virtAttrs defaultUid defaultGid).stUid = 0 ∧
    (virtAttrs defaultUid defaultGid).stGid = 0 := by
  refine ⟨?_, rfl, rfl, rfl, rfl, rfl, rfl⟩
  simp [getattrOp, hm]

theorem getattr_virtual_synthetic_witness :
    getattrOp "/".toList "/data".toList 0 0 (fun _ => none) "/1_2_BI16.dds".toList
      = Except.ok (virtAttrs 0 0) :=
  (getattr_virtual_synthetic "/".toList "/data".toList 0 0 (fun _ => none)
    "/1_2_BI16.dds".toList ("1".toList, "2".toList, "BI".toList, "16".toList)
    (by decide)).1

/-- C1: two threads calling TileCacher._get_tile concurrently for the same
identity can both observe a miss, because the lookup and the
construct-and-insert take the tile lock separately; the schedule
lookup1, lookup2, create1, create2 invokes the getortho.Tile constructor
twice and hands the two callers two distinct handles. -/
theorem getTile_race_two_constructions :
    (runSched none 1 2 "BI".toList 16 [true, false, true, false]
        ⟨emptyCState, .start, .start⟩).cst.ctorCalls = 2 ∧
    (runSched none 1 2 "BI".toList 16 [true, false, true, false]
        ⟨emptyCState, .start, .start⟩).pc1 = .done ⟨0, 0, false⟩ ∧
    (runSched none 1 2 "BI".toList 16 [true, false, true, false]
        ⟨emptyCState, .start, .start⟩).pc2 = .done ⟨1, 0, false⟩ ∧
    (Tile.mk 0 0 false) ≠ (Tile.mk 1 0 false) := by decide

/-- C6, counterexample: the truncate operation has no virtual-path case, so
on a recognized virtual path with no real backing file it fails with a
not-found error instead of succeeding as a no-op. -/
theorem truncate_virtual_not_noop :
    (ddsMatchL "/1_2_BI16.dds".toList).isSome = true ∧
    truncateOp "/".toList "/data".toList "/1_2_BI16.dds".toList 5 (fun _ => none)
      = Except.error FErr.enoent :=
  ⟨by decide, rfl⟩

/-- C6, amended: the flush handler returns success without touching any
state on virtual paths; truncate ignores virtuality and truncates the
re-rooted backing file, failing with not-found when it is absent; the write
handler never consults the path and delegates to the host descriptor. -/
theorem flush_noop_truncate_write_delegate (p : List Char) (fh : Nat)
    (hostSync : Nat → Except FErr Nat) (cwd root : List Char) (len : Nat)
    (fs : List Char → Option (List Nat)) (buf : List Nat) (off : Nat)
    (hst : Nat → List Nat)
    (hv : (ddsMatchL p).isSome = true)
    (hf : fs (fullPathL cwd root p) = none) :
    flushOp p fh hostSync = .ok 0 ∧
    truncateOp cwd root p len fs = .error .enoent ∧
    ∀ q : List Char, writeOp p buf off fh hst = writeOp q buf off fh hst := by
  refine ⟨?_, ?_, fun q => rfl⟩
  · simp [flushOp, hv]
  · simp [truncateOp, hf]

theorem flush_noop_truncate_write_delegate_witness :
    flushOp "/1_2_BI16.dds".toList 3 (fun n => Except.ok n) = Except.ok 0 ∧
    truncateOp "/".toList "/data".toList "/1_2_BI16.dds".toList 5 (fun _ => none)
      = Except.error FErr.enoent := by
  have h := flush_noop_truncate_write_delegate "/1_2_BI16.dds".toList 3
    (fun n => Except.ok n) "/".toList "/data".toList 5 (fun _ => none) [] 0 (fun _ => [])
    (by decide) rfl
  exact ⟨h.1, h.2.1⟩

/-- C10: open converts the parsed digit groups with int() before the cache
key is built, so two virtual paths whose digit fields agree numerically
resolve to the same key, and opening both from an empty cache yields a
single shared handle constructed once whose reference count has been
incremented twice. -/
theorem leading_zeros_same_tile (ovr : Option (List Char))
    (p1 p2 r1 c1 m z1 r2 c2 z2 : List Char)
    (h1 : ddsMatchL p1 = some (r1, c1, m, z1))
    (h2 : ddsMatchL p2 = some (r2, c2, m, z2))
    (hr : pyInt r1 = pyInt r2) (hc : pyInt c1 = pyInt c2) (hz : pyInt z1 = pyInt z2) :
    getTileIdx ovr (pyInt r1) (pyInt c1) m (pyInt z1)
      = getTileIdx ovr (pyInt r2) (pyInt c2) m (pyInt z2) ∧
    (AutoOrtho.openOp ovr p2 (AutoOrtho.openOp ovr p1 emptyCState)).tiles
      = [(getTileIdx ovr (pyInt r1) (pyInt c1) m (pyInt z1),
          ⟨0, tileInitRefs + 1 + 1, false⟩)] ∧
    (AutoOrtho.openOp ovr p2 (AutoOrtho.openOp ovr p1 emptyCState)).ctorCalls = 1 := by
  have hkey : getTileIdx ovr (pyInt r1) (pyInt c1) m (pyInt z1)
      = getTileIdx ovr (pyInt r2) (pyInt c2) m (pyInt z2) := by rw [hr, hc, hz]
  refine ⟨hkey, ?_, ?_⟩ <;>
    simp [AutoOrtho.openOp, h1, h2, TileCacher.getTile, emptyCState, setKey,
      bumpRefs, lookupKey, ← hkey, tileInitRefs]

theorem leading_zeros_same_tile_witness :
    getTileIdx none (pyInt "0123".toList) (pyInt "456".toList) "BI".toList
        (pyInt "16".toList)
      = getTileIdx none (pyInt "123".toList) (pyInt "456".toList) "BI".toList
        (pyInt "16".toList) :=
  (leading_zeros_same_tile none "/0123_456_BI16.dds".toList "/123_456_BI16.dds".toList
    "0123".toList "456".toList "BI".toList "16".toList
    "123".toList "456".toList "16".toList
    (by decide) (by decide) (by decide) (by decide) (by decide)).1

theorem lookupKey_popKey_ne (k k' : List Char) (h : k' ≠ k)
    (ts : List (List Char × Tile)) :
    lookupKey k (popKey k' ts) = lookupKey k ts := by
  induction ts with
  | nil => rfl
  | cons kv rest ih =>
    obtain ⟨a, t⟩ := kv
    by_cases hk : a = k'
    · simp [popKey, lookupKey, hk, h]
    · by_cases hak : a = k
      · simp [popKey, lookupKey, hk, hak, Ne.symm h]
      · simp [popKey, lookupKey, hk, hak, ih]

theorem sweepKeys_preserves (k : List Char) (t : Tile) (hpos : 0 < t.refs)
    (ks : List (List Char)) :
    ∀ ts : List (List Char × Tile),
      lookupKey k ts = some t → lookupKey k (sweepKeys ks ts).1 = some t := by
  induction ks with
  | nil => intro ts hk; simpa [sweepKeys] using hk
  | cons k' ks ih =>
    intro ts hk
    simp only [sweepKeys]
    cases h' : lookupKey k' ts with
    | none => exact ih ts hk
    | some t' =>
      by_cases hr : t'.refs ≤ 0
      · simp only [if_pos hr]
        show lookupKey k (sweepKeys ks (popKey k' ts)).1 = some t
        by_cases hkk : k' = k
        · subst hkk
          rw [hk] at h'
          cases h'
          exact absurd hr (not_le.mpr hpos)
        · exact ih (popKey k' ts) (by rw [lookupKey_popKey_ne k k' hkk ts]; exact hk)
      · simp only [if_neg hr]
        exact ih ts hk

theorem cleanPass_preserves (mem : Nat) (k : List Char) (t : Tile) (hpos : 0 < t.refs)
    (ts : List (List Char × Tile)) (hk : lookupKey k ts = some t) :
    lookupKey k (cleanPass mem ts).1 = some t := by
  unfold cleanPass
  split
  · exact sweepKeys_preserves k t hpos _ ts hk
  · exact hk

/-- C2: the reclamation loop never removes a tile handle whose reference
count is positive: across any number of passes, with arbitrary memory
samples (in particular with both the 90-handle watermark and the 2 GiB
ceiling exceeded), a handle with positive count is still present,
unchanged, under its key. -/
theorem clean_never_evicts_referenced (mems : List Nat) (ts : List (List Char × Tile))
    (k : List Char) (t : Tile) (hk : lookupKey k ts = some t) (hpos : 0 < t.refs) :
    lookupKey k (cleanLoop mems ts) = some t := by
  induction mems generalizing ts with
  | nil => simpa [cleanLoop] using hk
  | cons mem mems ih =>
    have h1 := cleanPass_preserves mem k t hpos ts hk
    show lookupKey k (cleanLoop mems (cleanPass mem ts).1) = some t
    exact ih (cleanPass mem ts).1 h1

theorem clean_never_evicts_referenced_witness :
    lookupKey (natStr 1) (cleanLoop [memLimit + 1] demoTiles) = some ⟨1, 1, false⟩ :=
  clean_never_evicts_referenced [memLimit + 1] demoTiles (natStr 1) ⟨1, 1, false⟩
    (by decide) (by decide)

theorem lookupKey_bumpRefs_self (k : List Char) (d : Int) (ts : List (List Char × Tile)) :
    lookupKey k (bumpRefs k d ts)
      = (lookupKey k ts).map (fun t => { t with refs := t.refs + d }) := by
  induction ts with
  | nil => rfl
  | cons kv rest ih =>
    obtain ⟨a, t⟩ := kv
    by_cases h : a = k
    · simp [bumpRefs, lookupKey, h]
    · simp [bumpRefs, lookupKey, h, ih]

theorem getTile_tiles_found (ovr : Option (List Char)) (row col : Nat) (mt : List Char)
    (zoom : Nat) (st : CState) (u : Tile)
    (h : lookupKey (getTileIdx ovr row col mt zoom) st.tiles = some u) :
    (TileCacher.getTile ovr row col mt zoom st).2.tiles = st.tiles := by
  simp only [TileCacher.getTile, h]
  split <;> rfl

theorem openOp_at_key (ovr : Option (List Char)) (p r c m z : List Char) (st : CState)
    (u : Tile) (hm : ddsMatchL p = some (r, c, m, z))
    (hk : lookupKey (getTileIdx ovr (pyInt r) (pyInt c) m (pyInt z)) st.tiles = some u) :
    lookupKey (getTileIdx ovr (pyInt r) (pyInt c) m (pyInt z))
      (AutoOrtho.openOp ovr p st).tiles = some { u with refs := u.refs + 1 } := by
  simp only [AutoOrtho.openOp, hm]
  rw [lookupKey_bumpRefs_self, getTile_tiles_found ovr _ _ _ _ st u hk, hk]
  rfl

theorem releaseOp_at_key (ovr : Option (List Char)) (p r c m z : List Char) (st : CState)
    (u : Tile) (hm : ddsMatchL p = some (r, c, m, z))
    (hk : lookupKey (getTileIdx ovr (pyInt r) (pyInt c) m (pyInt z)) st.tiles = some u) :
    lookupKey (getTileIdx ovr (pyInt r) (pyInt c) m (pyInt z))
      (AutoOrtho.releaseOp ovr p st).tiles = some { u with refs := u.refs + (-1) } := by
  simp only [AutoOrtho.releaseOp, hm]
  rw [lookupKey_bumpRefs_self, getTile_tiles_found ovr _ _ _ _ st u hk, hk]
  rfl

theorem countRel_cons (b : Bool) (l : List Bool) :
    countRel (b :: l) = (if b then (1 : Int) else -1) + countRel l := by
  cases b <;> simp [countRel, List.count_cons] <;> ring

theorem applyOps_at_key (ovr : Option (List Char)) (p r c m z : List Char)
    (hm : ddsMatchL p = some (r, c, m, z)) (l : List Bool) :
    ∀ (st : CState) (u : Tile),
      lookupKey (getTileIdx ovr (pyInt r) (pyInt c) m (pyInt z)) st.tiles = some u →
      lookupKey (getTileIdx ovr (pyInt r) (pyInt c) m (pyInt z))
          (applyOps ovr p l st).tiles
        = some { u with refs := u.refs + countRel l } := by
  induction l with
  | nil =>
    intro st u hk
    simpa [applyOps, countRel] using hk
  | cons b l ih =>
    intro st u hk
    have hstep : lookupKey (getTileIdx ovr (pyInt r) (pyInt c) m (pyInt z))
        ((if b then AutoOrtho.openOp ovr p st else AutoOrtho.releaseOp ovr p st)).tiles
        = some { u with refs := u.refs + (if b then (1 : Int) else -1) } := by
      cases b
      · simpa using releaseOp_at_key ovr p r c m z st u hm hk
      · simpa using openOp_at_key ovr p r c m z st u hm hk
    have hrec := ih _ _ hstep
    show lookupKey (getTileIdx ovr (pyInt r) (pyInt c) m (pyInt z))
        (applyOps ovr p l
          (if b then AutoOrtho.openOp ovr p st else AutoOrtho.releaseOp ovr p st)).tiles
      = some { u with refs := u.refs + countRel (b :: l) }
    rw [hrec, countRel_cons, ← add_assoc]

/-- C3: for a tile present in the cache with a non-negative reference count,
any well-paired sequence of open and release calls on a path with that
identity keeps the count non-negative after every step, and restores both
the count and the whole handle exactly when the sequence is balanced. -/
theorem refcount_balanced_sequences (ovr : Option (List Char)) (p r c m z : List Char)
    (st0 : CState) (t0 : Tile) (ops : List Bool)
    (hm : ddsMatchL p = some (r, c, m, z))
    (hk : lookupKey (getTileIdx ovr (pyInt r) (pyInt c) m (pyInt z)) st0.tiles = some t0)
    (h0 : 0 ≤ t0.refs)
    (hpre : ∀ n, n ≤ ops.length → 0 ≤ countRel (ops.take n))
    (hbal : countRel ops = 0) :
    (∀ n, n ≤ ops.length →
      ∃ t, lookupKey (getTileIdx ovr (pyInt r) (pyInt c) m (pyInt z))
            (applyOps ovr p (ops.take n) st0).tiles = some t ∧ 0 ≤ t.refs) ∧
    lookupKey (getTileIdx ovr (pyInt r) (pyInt c) m (pyInt z))
      (applyOps ovr p ops st0).tiles = some t0 := by
  constructor
  · intro n hn
    refine ⟨_, applyOps_at_key ovr p r c m z hm (ops.take n) st0 t0 hk, ?_⟩
    exact add_nonneg h0 (hpre n hn)
  · have h := applyOps_at_key ovr p r c m z hm ops st0 t0 hk
    rw [hbal] at h
    simpa using h

theorem refcount_balanced_sequences_witness :
    lookupKey (getTileIdx none (pyInt "1".toList) (pyInt "2".toList) "BI".toList
        (pyInt "16".toList))
      (applyOps none "/1_2_BI16.dds".toList [true, false]
        ⟨[(tileIdx 1 2 "BI".toList 16, ⟨0, 0, false⟩)], 0, 0, 1, 1⟩).tiles
      = some ⟨0, 0, false⟩ :=
  (refcount_balanced_sequences none "/1_2_BI16.dds".toList "1".toList "2".toList
    "BI".toList "16".toList ⟨[(tileIdx 1 2 "BI".toList 16, ⟨0, 0, false⟩)], 0, 0, 1, 1⟩
    ⟨0, 0, false⟩ [true, false] (by decide) (by decide) (by decide)
    (by intro n hn; simp only [List.length_cons, List.length_nil] at hn;
        interval_cases n <;> decide) (by decide)).2

theorem lookupKey_append_not_mem (k : List Char) (pre w : List (List Char × Tile))
    (h : k ∉ pre.map Prod.fst) :
    lookupKey k (pre ++ w) = lookupKey k w := by
  induction pre with
  | nil => rfl
  | cons kv rest ih =>
    obtain ⟨a, t⟩ := kv
    simp only [List.map_cons, List.mem_cons, not_or] at h
    simp only [List.cons_append, lookupKey]
    rw [if_neg (fun hh => h.1 hh.symm)]
    exact ih h.2

theorem popKey_append_not_mem (k : List Char) (pre w : List (List Char × Tile))
    (h : k ∉ pre.map Prod.fst) :
    popKey k (pre ++ w) = pre ++ popKey k w := by
  induction pre with
  | nil => rfl
  | cons kv rest ih =>
    obtain ⟨a, t⟩ := kv
    simp only [List.map_cons, List.mem_cons, not_or] at h
    simp only [List.cons_append, popKey]
    rw [if_neg (fun hh => h.1 hh.symm)]
    exact congrArg (List.cons (a, t)) (ih h.2)

theorem sweepKeys_spec (u : List (List Char × Tile)) :
    ∀ pre v : List (List Char × Tile),
      ((pre ++ u ++ v).map Prod.fst).Nodup →
      sweepKeys (u.map Prod.fst) (pre ++ u ++ v)
        = (pre ++ u.filter (fun kv => decide (0 < kv.2.refs)) ++ v,
            (u.filter (fun kv => decide (kv.2.refs ≤ 0))).map (fun kv => closeTile kv.2)) := by
  induction u with
  | nil => intro pre v _; simp [sweepKeys]
  | cons kv u ih =>
    intro pre v hnd
    obtain ⟨k, t⟩ := kv
    have hshape : pre ++ (k, t) :: u ++ v = pre ++ ((k, t) :: (u ++ v)) := by simp
    have hnd' : (k :: (pre.map Prod.fst ++ (u ++ v).map Prod.fst)).Nodup := by
      apply List.nodup_middle.mp
      simpa using hnd
    obtain ⟨hkn, hndrest⟩ := List.nodup_cons.mp hnd'
    have hkpre : k ∉ pre.map Prod.fst := fun hm => hkn (List.mem_append.mpr (Or.inl hm))
    have hlook : lookupKey k (pre ++ (k, t) :: u ++ v) = some t := by
      rw [hshape, lookupKey_append_not_mem k pre _ hkpre]
      simp [lookupKey]
    simp only [List.map_cons, sweepKeys, hlook]
    by_cases hr : t.refs ≤ 0
    · simp only [if_pos hr]
      have hpop : popKey k (pre ++ (k, t) :: u ++ v) = pre ++ u ++ v := by
        rw [hshape, popKey_append_not_mem k pre _ hkpre]
        simp [popKey]
      have hrec := ih pre v (by simpa using hndrest)
      rw [hpop, hrec]
      simp [List.filter_cons, hr, not_lt.mpr hr]
    · simp only [if_neg hr]
      have hassoc : pre ++ (k, t) :: u ++ v = (pre ++ [(k, t)]) ++ u ++ v := by simp
      have hrec := ih (pre ++ [(k, t)]) v (by rw [← hassoc]; simpa using hnd)
      rw [hassoc, hrec]
      simp [List.filter_cons, hr, not_le.mp hr]

/-- C7: one cycle of the reclamation loop, when at least 90 handles are
cached and resident memory exceeds the 2 GiB ceiling, removes exactly those
of the 20 oldest-inserted handles whose reference count is at most zero,
closing each removed handle, and leaves everything else in insertion order;
when either threshold is not exceeded, nothing is removed. -/
theorem cleanPass_batch_spec (mem : Nat) (ts : List (List Char × Tile))
    (hnd : (ts.map Prod.fst).Nodup) :
    memLimit = 2147483648 ∧
    (90 ≤ ts.length ∧ memLimit < mem →
      cleanPass mem ts
        = ((ts.take 20).filter (fun kv => decide (0 < kv.2.refs)) ++ ts.drop 20,
            ((ts.take 20).filter (fun kv => decide (kv.2.refs ≤ 0))).map
              (fun kv => closeTile kv.2))) ∧
    (∀ u ∈ (cleanPass mem ts).2, u.closed = true) ∧
    (¬(90 ≤ ts.length ∧ memLimit < mem) → cleanPass mem ts = (ts, [])) := by
  have hchar : 90 ≤ ts.length ∧ memLimit < mem →
      cleanPass mem ts
        = ((ts.take 20).filter (fun kv => decide (0 < kv.2.refs)) ++ ts.drop 20,
            ((ts.take 20).filter (fun kv => decide (kv.2.refs ≤ 0))).map
              (fun kv => closeTile kv.2)) := by
    intro hg
    unfold cleanPass
    rw [if_pos hg]
    have hkeys : (ts.map Prod.fst).take 20 = (ts.take 20).map Prod.fst :=
      (List.map_take Prod.fst ts 20).symm
    have hsplit : ts = [] ++ ts.take 20 ++ ts.drop 20 := by
      simp [List.take_append_drop]
    rw [hkeys]
    calc sweepKeys ((ts.take 20).map Prod.fst) ts
        = sweepKeys ((ts.take 20).map Prod.fst) ([] ++ ts.take 20 ++ ts.drop 20) := by
          rw [← hsplit]
      _ = ([] ++ (ts.take 20).filter (fun kv => decide (0 < kv.2.refs)) ++ ts.drop 20,
            ((ts.take 20).filter (fun kv => decide (kv.2.refs ≤ 0))).map
              (fun kv => closeTile kv.2)) := by
          apply sweepKeys_spec
          rw [← hsplit]
          exact hnd
      _ = ((ts.take 20).filter (fun kv => decide (0 < kv.2.refs)) ++ ts.drop 20,
            ((ts.take 20).filter (fun kv => decide (kv.2.refs ≤ 0))).map
              (fun kv => closeTile kv.2)) := by
          simp
  refine ⟨by norm_num [memLimit], hchar, ?_, ?_⟩
  · intro u hu
    by_cases hg : 90 ≤ ts.length ∧ memLimit < mem
    · rw [hchar hg] at hu
      simp only [List.mem_map] at hu
      obtain ⟨kv, _, hkv⟩ := hu
      rw [← hkv]
      rfl
    · unfold cleanPass at hu
      rw [if_neg hg] at hu
      simp at hu
  · intro hg
    unfold cleanPass
    rw [if_neg hg]

theorem cleanPass_batch_spec_witness :
    cleanPass (memLimit + 1) demoTiles
      = ((demoTiles.take 20).filter (fun kv => decide (0 < kv.2.refs))
            ++ demoTiles.drop 20,
          ((demoTiles.take 20).filter (fun kv => decide (kv.2.refs ≤ 0))).map
            (fun kv => closeTile kv.2)) :=
  (cleanPass_batch_spec (memLimit + 1) demoTiles (by decide)).2.1 (by decide)

theorem splitSlash_ne_nil (x : List Char) : splitSlash x ≠ [] := by
  induction x with
  | nil => simp [splitSlash]
  | cons c cs ih =>
    simp only [splitSlash]
    split
    · simp
    · cases h : splitSlash cs with
      | nil => simp
      | cons g gs => simp [h]

theorem splitSlash_append_slash (a b : List Char) :
    splitSlash (a ++ '/' :: b) = splitSlash a ++ splitSlash b := by
  induction a with
  | nil => simp [splitSlash]
  | cons c cs ih =>
    by_cases hc : c = '/'
    · subst hc
      simp [splitSlash, ih]
    · cases hcs : splitSlash cs with
      | nil => exact absurd hcs (splitSlash_ne_nil cs)
      | cons g gs =>
        simp [splitSlash, if_neg hc, ih, hcs]

theorem joinSlash_splitSlash (x : List Char) : joinSlash (splitSlash x) = x := by
  induction x with
  | nil => rfl
  | cons c cs ih =>
    by_cases hc : c = '/'
    · subst hc
      simp only [splitSlash, if_pos rfl]
      cases hcs : splitSlash cs with
      | nil => exact absurd hcs (splitSlash_ne_nil cs)
      | cons g gs =>
        rw [hcs] at ih
        simpa [joinSlash] using ih
    · simp only [splitSlash, if_neg hc]
      cases hcs : splitSlash cs with
      | nil => exact absurd hcs (splitSlash_ne_nil cs)
      | cons g gs =>
        rw [hcs] at ih
        cases gs with
        | nil =>
          simp only [joinSlash] at ih ⊢
          rw [ih]
        | cons g2 gs' =>
          simp only [joinSlash] at ih ⊢
          rw [← ih]
          simp

theorem splitSlash_cons_slash (t : List Char) : splitSlash ('/' :: t) = [] :: splitSlash t := by
  simp [splitSlash]

theorem splitSlash_cons_ne (c : Char) (t : List Char) (hc : c ≠ '/') :
    splitSlash (c :: t)
      = match splitSlash t with
        | g :: gs => (c :: g) :: gs
        | [] => [[c]] := by
  simp [splitSlash, hc]

theorem splitSlash_getLast_empty (x : List Char) :
    x ≠ [] → x.getLast? = some '/' → (splitSlash x).getLast? = some [] := by
  induction x with
  | nil => intro h; exact absurd rfl h
  | cons c cs ih =>
    intro _ hlast
    by_cases hcs : cs = []
    · subst hcs
      have hc : c = '/' := by simpa using hlast
      subst hc
      rfl
    · obtain ⟨d, ds, rfl⟩ := List.exists_cons_of_ne_nil hcs
      have hlast' : (d :: ds).getLast? = some '/' := by
        rwa [List.getLast?_cons_cons] at hlast
      have ihres := ih hcs hlast'
      by_cases hc : c = '/'
      · subst hc
        rw [splitSlash_cons_slash]
        obtain ⟨g, gs, hgs⟩ := List.exists_cons_of_ne_nil (splitSlash_ne_nil (d :: ds))
        rw [hgs] at ihres ⊢
        rwa [List.getLast?_cons_cons]
      · rw [splitSlash_cons_ne c (d :: ds) hc]
        cases hgs : splitSlash (d :: ds) with
        | nil => exact absurd hgs (splitSlash_ne_nil (d :: ds))
        | cons g gs =>
          rw [hgs] at ihres
          show ((c :: g) :: gs).getLast? = some []
          cases gs with
          | nil =>
            have hg : g = [] := by simpa using ihres
            have hcseq : d :: ds = g := by
              have := joinSlash_splitSlash (d :: ds)
              rw [hgs] at this
              simpa [joinSlash] using this.symm
            rw [hg] at hcseq
            exact absurd hcseq (by simp)
          | cons g2 gs' =>
            rw [List.getLast?_cons_cons] at ihres ⊢
            exact ihres

theorem normParts_all_normal (slashes : Nat) (l : List (List Char))
    (h : ∀ c ∈ l, normalComp c = true) :
    ∀ acc, normParts slashes acc l = acc.reverse ++ l := by
  induction l with
  | nil => intro acc; simp [normParts]
  | cons comp rest ih =>
    intro acc
    have hc := h comp (List.mem_cons_self comp rest)
    have h1 : comp ≠ [] := fun he => absurd (he ▸ hc) (by decide)
    have h2' : comp ≠ ['.'] := fun he => absurd (he ▸ hc) (by decide)
    have h3' : comp ≠ ['.', '.'] := fun he => absurd (he ▸ hc) (by decide)
    have hrest : ∀ c ∈ rest, normalComp c = true :=
      fun c hc' => h c (List.mem_cons_of_mem _ hc')
    simp only [normParts]
    rw [if_neg (by push_neg; exact ⟨h1, h2'⟩), if_pos (Or.inl h3')]
    rw [ih hrest (comp :: acc)]
    simp

theorem leadsWith_append_self (a b : List Char) : leadsWith a (a ++ b) = true := by
  induction a with
  | nil => rfl
  | cons c cs ih => simp [leadsWith, ih]

theorem normal_no_lead_slash (x : List Char)
    (h : ∀ c ∈ splitSlash x, normalComp c = true) :
    leadsWith ['/'] x = false := by
  cases x with
  | nil => rfl
  | cons c tl =>
    by_cases hc : c = '/'
    · subst hc
      exact absurd (h [] (by simp [splitSlash])) (by decide)
    · simp [leadsWith, Ne.symm hc]

theorem normal_no_last_slash (x : List Char) (hne : x ≠ [])
    (h : ∀ c ∈ splitSlash x, normalComp c = true) :
    x.getLast? ≠ some '/' := by
  intro hlast
  have hl := splitSlash_getLast_empty x hne hlast
  have hm : [] ∈ splitSlash x := List.mem_of_mem_getLast? hl
  exact absurd (h [] hm) (by decide)

theorem normPath_no_op (q : List Char) (hq : leadsWith ['/'] q = false)
    (hall : ∀ c ∈ splitSlash q, normalComp c = true) :
    normPath ('/' :: q) = '/' :: q := by
  have e2 : leadsWith ['/', '/'] ('/' :: q) = false := by
    cases q with
    | nil => rfl
    | cons x xs => simpa [leadsWith] using hq
  have e3 : leadsWith ['/', '/', '/'] ('/' :: q) = false := by
    cases q with
    | nil => rfl
    | cons x xs =>
      have hx : ('/' == x) = false := by simpa [leadsWith] using hq
      simp [leadsWith, hx]
  have hsp : splitSlash ('/' :: q) = [] :: splitSlash q := splitSlash_cons_slash q
  have step1 : normParts 1 [] ([] :: splitSlash q) = normParts 1 [] (splitSlash q) := by
    simp [normParts]
  have step2 : normParts 1 [] (splitSlash q) = splitSlash q := by
    rw [normParts_all_normal 1 (splitSlash q) hall []]
    simp
  simp only [normPath, hsp, e3, e2]
  simp [leadsWith, step1, step2, joinSlash_splitSlash]

/-- C9, counterexample: path resolution is a bare prefix-join plus
normalization with no escape rejection: a request path with a second leading
slash resolves to an absolute path that replaces the root entirely, and a
parent-directory component climbs out of the root. -/
theorem fullPath_escape_counterexample :
    fullPathL "/".toList "/data".toList "//etc/passwd".toList = "/etc/passwd".toList ∧
    withinRoot "/data".toList
      (fullPathL "/".toList "/data".toList "//etc/passwd".toList) = false ∧
    fullPathL "/".toList "/data".toList "/../secret".toList = "/secret".toList ∧
    withinRoot "/data".toList
      (fullPathL "/".toList "/data".toList "/../secret".toList) = false := by
  decide

/-- C9, amended: passthrough operations resolve the request path by
prefix-join under the root followed by normalization, with no rejection of
empty or escaping results; whenever the root is a normalized absolute path
and the request path consists of normal components (no empty, '.' or '..'
components and no second leading slash), the resolved path is the plain
concatenation and lies within the root. -/
theorem fullPath_benign_within_root (cwd rt pz : List Char)
    (h1 : rt ≠ [])
    (h2 : ∀ c ∈ splitSlash rt, normalComp c = true)
    (h3 : ∀ c ∈ splitSlash pz, normalComp c = true) :
    fullPathL cwd ('/' :: rt) ('/' :: pz) = ('/' :: rt) ++ '/' :: pz ∧
    withinRoot ('/' :: rt) (fullPathL cwd ('/' :: rt) ('/' :: pz)) = true := by
  have hpz_lead : leadsWith ['/'] pz = false := normal_no_lead_slash pz h3
  have hrt_last : rt.getLast? ≠ some '/' := normal_no_last_slash rt h1 h2
  have hrt_lead : leadsWith ['/'] rt = false := normal_no_lead_slash rt h2
  have hstrip : fullPathL cwd ('/' :: rt) ('/' :: pz)
      = absPath cwd (posixJoin ('/' :: rt) pz) := rfl
  have hjoin : posixJoin ('/' :: rt) pz = ('/' :: rt) ++ '/' :: pz := by
    unfold posixJoin
    rw [if_neg (by simp [hpz_lead]), if_neg ?hc]
    case hc =>
      push_neg
      constructor
      · simp
      · obtain ⟨d, ds, rfl⟩ := List.exists_cons_of_ne_nil h1
        rw [List.getLast?_cons_cons]
        exact hrt_last
  have habs : absPath cwd (('/' :: rt) ++ '/' :: pz)
      = normPath (('/' :: rt) ++ '/' :: pz) := by
    unfold absPath
    rw [if_pos (by simp [leadsWith])]
  have hform : (('/' :: rt) ++ '/' :: pz) = '/' :: (rt ++ '/' :: pz) := by simp
  have hql : leadsWith ['/'] (rt ++ '/' :: pz) = false := by
    obtain ⟨d, ds, rfl⟩ := List.exists_cons_of_ne_nil h1
    have hd : ('/' == d) = false := by simpa [leadsWith] using hrt_lead
    simp [leadsWith, hd]
  have hqall : ∀ c ∈ splitSlash (rt ++ '/' :: pz), normalComp c = true := by
    rw [splitSlash_append_slash]
    intro c hc
    rcases List.mem_append.mp hc with h | h
    · exact h2 c h
    · exact h3 c h
  have hnorm := normPath_no_op (rt ++ '/' :: pz) hql hqall
  have heq : fullPathL cwd ('/' :: rt) ('/' :: pz) = ('/' :: rt) ++ '/' :: pz := by
    rw [hstrip, hjoin, habs, hform, hnorm]
  refine ⟨heq, ?_⟩
  rw [heq]
  unfold withinRoot
  have hshape : (('/' :: rt) ++ '/' :: pz) = ((('/' :: rt) ++ ['/']) ++ pz) := by simp
  rw [hshape, leadsWith_append_self]
  simp

theorem fullPath_benign_within_root_witness :
    fullPathL "/".toList ('/' :: "data".toList) ('/' :: "1_2_BI16.dds".toList)
      = ('/' :: "data".toList) ++ '/' :: "1_2_BI16.dds".toList ∧
    withinRoot ('/' :: "data".toList)
      (fullPathL "/".toList ('/' :: "data".toList) ('/' :: "1_2_BI16.dds".toList))
      = true :=
  fullPath_benign_within_root "/".toList "data".toList "1_2_BI16.dds".toList
    (by decide) (by decide) (by decide)

theorem firstSome_eq_some {l : List α} {f : α → Option β} {b : β}
    (h : firstSome l f = some b) : ∃ a ∈ l, f a = some b := by
  induction l with
  | nil => cases h
  | cons a rest ih =>
    simp only [firstSome] at h
    cases hf : f a with
    | some b' =>
      rw [hf] at h
      cases h
      exact ⟨a, List.mem_cons_self a rest, hf⟩
    | none =>
      rw [hf] at h
      obtain ⟨a', ha', hfa⟩ := ih h
      exact ⟨a', List.mem_cons_of_mem a ha', hfa⟩

theorem firstSome_isSome_of_mem {l : List α} {f : α → Option β} {a : α}
    (ha : a ∈ l) (hfa : (f a).isSome = true) :
    (firstSome l f).isSome = true := by
  induction l with
  | nil => cases ha
  | cons x rest ih =>
    simp only [firstSome]
    cases hf : f x with
    | some b => simp
    | none =>
      rcases List.mem_cons.mp ha with rfl | ha'
      · rw [hf] at hfa
        cases hfa
      · exact ih ha'

theorem mem_digSplits (s : List Char) :
    ∀ g r : List Char,
      (g, r) ∈ digSplits s ↔ g ≠ [] ∧ g.all isDig = true ∧ g ++ r = s := by
  induction s with
  | nil =>
    intro g r
    constructor
    · intro h; cases h
    · rintro ⟨h1, _, h3⟩
      exact absurd (List.append_eq_nil.mp h3).1 h1
  | cons c cs ih =>
    intro g r
    by_cases hc : isDig c = true
    · simp only [digSplits, if_pos hc]
      constructor
      · intro hmem
        rcases List.mem_cons.mp hmem with heq | hmem'
        · cases heq
          exact ⟨by simp, by simp [hc], rfl⟩
        · simp only [List.mem_map] at hmem'
          obtain ⟨⟨g', r'⟩, hgr', heq⟩ := hmem'
          cases heq
          obtain ⟨h1, h2, h3⟩ := (ih g' r').mp hgr'
          exact ⟨by simp, by simp [hc, h2], by simp [h3]⟩
      · rintro ⟨h1, h2, h3⟩
        cases g with
        | nil => exact absurd rfl h1
        | cons gc g' =>
          rw [List.cons_append] at h3
          injection h3 with h3a h3b
          subst h3a
          simp only [List.all_cons, Bool.and_eq_true] at h2
          by_cases hg' : g' = []
          · subst hg'
            simp only [List.nil_append] at h3b
            subst h3b
            exact List.mem_cons_self _ _
          · refine List.mem_cons_of_mem _ ?_
            simp only [List.mem_map]
            exact ⟨(g', r), (ih g' r).mpr ⟨hg', h2.2, h3b⟩, rfl⟩
    · simp only [digSplits, if_neg hc]
      constructor
      · intro h; cases h
      · rintro ⟨h1, h2, h3⟩
        cases g with
        | nil => exact absurd rfl h1
        | cons gc g' =>
          rw [List.cons_append] at h3
          injection h3 with h3a h3b
          subst h3a
          simp only [List.all_cons, Bool.and_eq_true] at h2
          exact absurd h2.1 hc

theorem mem_nonDigSplits (s : List Char) :
    ∀ g r : List Char,
      (g, r) ∈ nonDigSplits s ↔ g.all (fun c => !isDig c) = true ∧ g ++ r = s := by
  induction s with
  | nil =>
    intro g r
    simp only [nonDigSplits, List.mem_singleton, Prod.mk.injEq]
    constructor
    · rintro ⟨rfl, rfl⟩
      exact ⟨rfl, rfl⟩
    · rintro ⟨_, h3⟩
      obtain ⟨hg, hr⟩ := List.append_eq_nil.mp h3
      exact ⟨hg, hr⟩
  | cons c cs ih =>
    intro g r
    simp only [nonDigSplits, List.mem_cons]
    constructor
    · intro hmem
      rcases hmem with heq | hmem'
      · cases heq
        exact ⟨rfl, rfl⟩
      · by_cases hc : isDig c
        · simp [hc] at hmem'
        · simp only [hc, Bool.not_false, if_pos, List.mem_map] at hmem'
          obtain ⟨⟨g', r'⟩, hgr', heq⟩ := hmem'
          cases heq
          obtain ⟨h2, h3⟩ := (ih g' r').mp hgr'
          refine ⟨?_, by simp [h3]⟩
          simp only [List.all_cons, Bool.and_eq_true]
          exact ⟨by simp [hc], h2⟩
    · rintro ⟨h2, h3⟩
      cases g with
      | nil =>
        simp only [List.nil_append] at h3
        subst h3
        left
        rfl
      | cons gc g' =>
        rw [List.cons_append] at h3
        injection h3 with h3a h3b
        subst h3a
        simp only [List.all_cons, Bool.and_eq_true] at h2
        right
        have hcnd : isDig gc = false := by
          cases hdig : isDig gc
          · rfl
          · rw [hdig] at h2
            exact absurd h2.1 (by simp)
        simp only [hcnd, Bool.not_false, if_pos, List.mem_map]
        exact ⟨(g', r), (ih g' r).mpr ⟨h2.2, h3b⟩, rfl⟩

theorem mem_slashSplits (p : List Char) :
    ∀ r : List Char,
      r ∈ slashSplits p ↔ ∃ pre, p = pre ++ '/' :: r ∧ ∀ x ∈ pre, x ≠ '\n' := by
  induction p with
  | nil =>
    intro r
    constructor
    · intro h; cases h
    · rintro ⟨pre, hp, _⟩
      exact absurd hp (by simp)
  | cons c cs ih =>
    intro r
    by_cases hn : c = '\n'
    · subst hn
      simp only [slashSplits, if_pos rfl]
      constructor
      · intro h; cases h
      · rintro ⟨pre, hp, hpre⟩
        cases pre with
        | nil =>
          injection hp with h1 _
          exact absurd h1 (by decide)
        | cons x pre' =>
          injection hp with h1 _
          exact absurd (h1 ▸ hpre x (List.mem_cons_self x pre')) (by simp)
    · by_cases hs : c = '/'
      · subst hs
        have hsplit : slashSplits ('/' :: cs) = cs :: slashSplits cs := by
          simp [slashSplits]
        rw [hsplit, List.mem_cons, ih r]
        constructor
        · rintro (rfl | ⟨pre, rfl, hpre⟩)
          · exact ⟨[], rfl, by simp⟩
          · refine ⟨'/' :: pre, rfl, ?_⟩
            intro x hx
            rcases List.mem_cons.mp hx with rfl | hx'
            · decide
            · exact hpre x hx'
        · rintro ⟨pre, hp, hpre⟩
          cases pre with
          | nil =>
            injection hp with _ h2
            left
            exact h2.symm
          | cons x pre' =>
            injection hp with _ h2
            right
            exact ⟨pre', h2, fun y hy => hpre y (List.mem_cons_of_mem _ hy)⟩
      · have hsplit : slashSplits (c :: cs) = slashSplits cs := by
          simp [slashSplits, hn, hs]
        rw [hsplit, ih r]
        constructor
        · rintro ⟨pre, rfl, hpre⟩
          refine ⟨c :: pre, rfl, ?_⟩
          intro x hx
          rcases List.mem_cons.mp hx with rfl | hx'
          · exact hn
          · exact hpre x hx'
        · rintro ⟨pre, hp, hpre⟩
          cases pre with
          | nil =>
            injection hp with h1 _
            exact absurd h1 hs
          | cons x pre' =>
            injection hp with h1 h2
            subst h1
            exact ⟨pre', h2, fun y hy => hpre y (List.mem_cons_of_mem _ hy)⟩

theorem afterDigits_sound {α : Type} {s : List Char} {k : List Char → List Char → Option α}
    {out : α}
    (h : firstSome (digSplits s).reverse (afterDigits k) = some out) :
    ∃ g c r2, s = g ++ c :: r2 ∧ g ≠ [] ∧ g.all isDig = true ∧ isSep c = true ∧
      k g r2 = some out := by
  obtain ⟨⟨g, r⟩, hmem, hf⟩ := firstSome_eq_some h
  rw [List.mem_reverse] at hmem
  obtain ⟨h1, h2, h3⟩ := (mem_digSplits s g r).mp hmem
  cases r with
  | nil => exact Option.noConfusion hf
  | cons c r2 =>
    simp only [afterDigits] at hf
    by_cases hsep : isSep c = true
    · rw [if_pos hsep] at hf
      exact ⟨g, c, r2, h3.symm, h1, h2, hsep, hf⟩
    · rw [if_neg hsep] at hf
      exact Option.noConfusion hf

theorem afterDigits_complete {α : Type} (k : List Char → List Char → Option α)
    (g : List Char) (c : Char) (r2 : List Char)
    (h1 : g ≠ []) (h2 : g.all isDig = true) (hsep : isSep c = true)
    (hk : (k g r2).isSome = true) :
    (firstSome (digSplits (g ++ c :: r2)).reverse (afterDigits k)).isSome = true := by
  have hmem : ((g, c :: r2) : List Char × List Char)
      ∈ (digSplits (g ++ c :: r2)).reverse := by
    rw [List.mem_reverse]
    exact (mem_digSplits _ g (c :: r2)).mpr ⟨h1, h2, rfl⟩
  refine firstSome_isSome_of_mem hmem ?_
  simp only [afterDigits]
  rw [if_pos hsep]
  exact hk

theorem dotDds_sound {g r z : List Char} (hf : dotDds (g, r) = some z) :
    z = g ∧ ∃ c post, r = c :: 'd' :: 'd' :: 's' :: post ∧ c ≠ '\n' := by
  rcases r with _ | ⟨c, _ | ⟨d1, _ | ⟨d2, _ | ⟨d3, rest⟩⟩⟩⟩
  · exact Option.noConfusion hf
  · exact Option.noConfusion hf
  · exact Option.noConfusion hf
  · exact Option.noConfusion hf
  · have hf' : (if c ≠ '\n' ∧ d1 = 'd' ∧ d2 = 'd' ∧ d3 = 's' then some g else none)
        = some z := hf
    by_cases hcond : c ≠ '\n' ∧ d1 = 'd' ∧ d2 = 'd' ∧ d3 = 's'
    · rw [if_pos hcond] at hf'
      obtain ⟨hcn, hd1, hd2, hd3⟩ := hcond
      subst hd1
      subst hd2
      subst hd3
      exact ⟨(Option.some.inj hf').symm, c, rest, rfl, hcn⟩
    · rw [if_neg hcond] at hf'
      exact Option.noConfusion hf'

theorem dotDds_complete (g : List Char) (c : Char) (post : List Char) (hc : c ≠ '\n') :
    dotDds (g, c :: 'd' :: 'd' :: 's' :: post) = some g := by
  simp [dotDds, hc]

theorem matchZoomDds_sound {s z : List Char} (h : matchZoomDds s = some z) :
    z ≠ [] ∧ z.all isDig = true ∧
      ∃ c post, s = z ++ c :: 'd' :: 'd' :: 's' :: post ∧ c ≠ '\n' := by
  obtain ⟨⟨g, r⟩, hmem, hf⟩ := firstSome_eq_some h
  rw [List.mem_reverse] at hmem
  obtain ⟨h1, h2, h3⟩ := (mem_digSplits s g r).mp hmem
  obtain ⟨hzg, c, post, hr, hc⟩ := dotDds_sound hf
  subst hzg
  exact ⟨h1, h2, c, post, by rw [← h3, hr], hc⟩

theorem matchZoomDds_complete (z : List Char) (c : Char) (post : List Char)
    (hz : z ≠ []) (hall : z.all isDig = true) (hc : c ≠ '\n') :
    (matchZoomDds (z ++ c :: 'd' :: 'd' :: 's' :: post)).isSome = true := by
  have hmem : ((z, c :: 'd' :: 'd' :: 's' :: post) : List Char × List Char)
      ∈ (digSplits (z ++ c :: 'd' :: 'd' :: 's' :: post)).reverse := by
    rw [List.mem_reverse]
    exact (mem_digSplits _ z (c :: 'd' :: 'd' :: 's' :: post)).mpr ⟨hz, hall, rfl⟩
  refine firstSome_isSome_of_mem hmem ?_
  rw [dotDds_complete z c post hc]
  rfl

theorem matchMapZoom_sound {s mt z : List Char} (h : matchMapZoom s = some (mt, z)) :
    startsZL s = false ∧ mt.all (fun c => !isDig c) = true ∧
      ∃ rest, s = mt ++ rest ∧ matchZoomDds rest = some z := by
  unfold matchMapZoom at h
  by_cases hzl : startsZL s = true
  · rw [if_pos hzl] at h
    exact Option.noConfusion h
  · rw [if_neg hzl] at h
    obtain ⟨⟨g, r⟩, hmem, hf⟩ := firstSome_eq_some h
    rw [List.mem_reverse] at hmem
    obtain ⟨h1, h2⟩ := (mem_nonDigSplits s g r).mp hmem
    simp only [Option.map_eq_some'] at hf
    obtain ⟨z', hz', heq⟩ := hf
    cases heq
    exact ⟨by simpa using hzl, h1, r, h2.symm, hz'⟩

theorem matchMapZoom_complete (mt rest : List Char)
    (hmt : mt.all (fun c => !isDig c) = true)
    (hzl : startsZL (mt ++ rest) = false)
    (hrest : (matchZoomDds rest).isSome = true) :
    (matchMapZoom (mt ++ rest)).isSome = true := by
  unfold matchMapZoom
  rw [if_neg (by simp [hzl])]
  obtain ⟨z, hz⟩ := Option.isSome_iff_exists.mp hrest
  have hmem : ((mt, rest) : List Char × List Char)
      ∈ (nonDigSplits (mt ++ rest)).reverse := by
    rw [List.mem_reverse]
    exact (mem_nonDigSplits _ mt rest).mpr ⟨hmt, rfl⟩
  refine firstSome_isSome_of_mem hmem ?_
  simp [hz]

theorem matchColRest_sound {s b mt z : List Char}
    (h : matchColRest s = some (b, mt, z)) :
    ∃ s2 r4, s = b ++ s2 :: r4 ∧ b ≠ [] ∧ b.all isDig = true ∧ isSep s2 = true ∧
      matchMapZoom r4 = some (mt, z) := by
  unfold matchColRest at h
  obtain ⟨g, c, r2, hs, h1, h2, hsep, hk⟩ := afterDigits_sound h
  simp only [Option.map_eq_some'] at hk
  obtain ⟨⟨mt', z'⟩, hmz, heq⟩ := hk
  cases heq
  exact ⟨c, r2, hs, h1, h2, hsep, hmz⟩

theorem matchColRest_complete (b : List Char) (s2 : Char) (r4 : List Char)
    (h1 : b ≠ []) (h2 : b.all isDig = true) (hsep : isSep s2 = true)
    (hmz : (matchMapZoom r4).isSome = true) :
    (matchColRest (b ++ s2 :: r4)).isSome = true := by
  unfold matchColRest
  refine afterDigits_complete _ b s2 r4 h1 h2 hsep ?_
  obtain ⟨mz, hmz'⟩ := Option.isSome_iff_exists.mp hmz
  simp [hmz']

theorem matchRowColRest_sound {s a b mt z : List Char}
    (h : matchRowColRest s = some (a, b, mt, z)) :
    ∃ s1 r2, s = a ++ s1 :: r2 ∧ a ≠ [] ∧ a.all isDig = true ∧ isSep s1 = true ∧
      matchColRest r2 = some (b, mt, z) := by
  unfold matchRowColRest at h
  obtain ⟨g, c, r2, hs, h1, h2, hsep, hk⟩ := afterDigits_sound h
  simp only [Option.map_eq_some'] at hk
  obtain ⟨⟨b', mt', z'⟩, hxyz, heq⟩ := hk
  cases heq
  exact ⟨c, r2, hs, h1, h2, hsep, hxyz⟩

theorem matchRowColRest_complete (a : List Char) (s1 : Char) (r2 : List Char)
    (h1 : a ≠ []) (h2 : a.all isDig = true) (hsep : isSep s1 = true)
    (hcr : (matchColRest r2).isSome = true) :
    (matchRowColRest (a ++ s1 :: r2)).isSome = true := by
  unfold matchRowColRest
  refine afterDigits_complete _ a s1 r2 h1 h2 hsep ?_
  obtain ⟨x, hx⟩ := Option.isSome_iff_exists.mp hcr
  simp [hx]

/-- C4, counterexample against the spec's stated convention: the classifier
disagrees with the bit-exact filename grammar in both directions.  A
map-type merely beginning with ZL is rejected although it differs from the
reserved token; a filename without any directory separator in the path is
rejected although its name matches the grammar; a path with trailing
characters after .dds is accepted although its filename does not match the
grammar. -/
theorem dds_classifier_spec_counterexample :
    specVirtualPath "/1_2_ZLA16.dds".toList = true ∧
    ddsMatchL "/1_2_ZLA16.dds".toList = none ∧
    specVirtualPath "123_456_BI16.dds".toList = true ∧
    ddsMatchL "123_456_BI16.dds".toList = none ∧
    specVirtualPath "/1_2_BI16.dds.bak".toList = false ∧
    (ddsMatchL "/1_2_BI16.dds.bak".toList).isSome = true := by
  decide

/-- C4, amended: the classifier recognizes a path as virtual exactly when
the path splits as pre, '/', row digits, separator, column digits,
separator, a non-digit run not beginning with Z L, zoom digits, one
arbitrary non-newline character, the letters d d s, and an arbitrary tail,
with pre free of newlines; the groups the classifier extracts always form
such a decomposition, and unmatched paths are signalled as not virtual
without any failure. -/
theorem dds_classifier_characterization (p : List Char) :
    (∀ a b mt z : List Char, ddsMatchL p = some (a, b, mt, z) → ddsSpec p a b mt z) ∧
    ((ddsMatchL p).isSome = true ↔ ∃ a b mt z, ddsSpec p a b mt z) := by
  have sound : ∀ a b mt z : List Char,
      ddsMatchL p = some (a, b, mt, z) → ddsSpec p a b mt z := by
    intro a b mt z h
    unfold ddsMatchL at h
    obtain ⟨r, hmem, hf⟩ := firstSome_eq_some h
    rw [List.mem_reverse] at hmem
    obtain ⟨pre, hp, hpre⟩ := (mem_slashSplits p r).mp hmem
    obtain ⟨s1, r2, hr, ha1, ha2, hs1, hcol⟩ := matchRowColRest_sound hf
    obtain ⟨s2, r4, hr2, hb1, hb2, hs2, hmz⟩ := matchColRest_sound hcol
    obtain ⟨hzl, hmt, rest, hr4, hzdds⟩ := matchMapZoom_sound hmz
    obtain ⟨hz1, hz2, c, post, hrest, hc⟩ := matchZoomDds_sound hzdds
    refine ⟨pre, s1, s2, c, post, ?_, hpre, ha1, ha2, hs1, hb1, hb2, hs2, hmt, ?_,
      hz1, hz2, hc⟩
    · rw [hp, hr, hr2, hr4, hrest]
      simp [List.append_assoc]
    · rw [List.append_assoc, ← hrest, ← hr4]
      exact hzl
  refine ⟨sound, ?_, ?_⟩
  · intro h
    obtain ⟨⟨a, b, mt, z⟩, hsome⟩ := Option.isSome_iff_exists.mp h
    exact ⟨a, b, mt, z, sound a b mt z hsome⟩
  · rintro ⟨a, b, mt, z, pre, s1, s2, c, post, hp, hpre, ha1, ha2, hs1, hb1, hb2, hs2,
      hmt, hzl, hz1, hz2, hc⟩
    unfold ddsMatchL
    have hmem : (a ++ s1 :: (b ++ s2 :: (mt ++ z ++ c :: 'd' :: 'd' :: 's' :: post)))
        ∈ (slashSplits p).reverse := by
      rw [List.mem_reverse]
      exact (mem_slashSplits p _).mpr ⟨pre, hp, hpre⟩
    refine firstSome_isSome_of_mem hmem ?_
    apply matchRowColRest_complete a s1 _ ha1 ha2 hs1
    apply matchColRest_complete b s2 _ hb1 hb2 hs2
    rw [List.append_assoc]
    refine matchMapZoom_complete mt (z ++ c :: 'd' :: 'd' :: 's' :: post) hmt ?_ ?_
    · rw [← List.append_assoc]
      exact hzl
    · exact matchZoomDds_complete z c post hz1 hz2 hc

theorem dds_classifier_characterization_witness :
    ddsSpec "/tex/24832_12416_BI16.dds".toList
      "24832".toList "12416".toList "BI".toList "16".toList :=
  (dds_classifier_characterization "/tex/24832_12416_BI16.dds".toList).1
    "24832".toList "12416".toList "BI".toList "16".toList (by decide)
